import Mathlib

/-!
Verification of `process_enums.py`: a tool that extracts enum member
definitions from PySide6 type-stub files and compiles them into an ordered
list of sed substitution rules.

The development embeds the data model and operations of the source file:
string helpers mirror the Python string operations used by the code, the
name resolver (`resolve_qualname` and friends) is embedded over an explicit
binding environment standing for the astroid scope lookup, the enum
extractor (`parse_classdef` / `parse_module`) is embedded with the mutable
qualified-name stack threaded explicitly, and the substitution compiler
(`_sort_key` / `_to_sed_script`) is embedded with Python `sorted` rendered
as a stable insertion sort by the same key.  The behaviour of an emitted
generic-occurrence rule under sed is modelled by an executable matcher,
`applyGeneric`, that implements the exact character classes of the emitted
pattern.
-/

namespace ProcessEnums

/-! ### String helpers mirroring the Python string operations -/

/-- Embedding of Python `s.split(".", 1)[0]`: the text before the first dot. -/
def strFirstSeg (s : String) : String := ⟨s.data.takeWhile (fun c => c != '.')⟩

/-- Embedding of Python `p.startswith(q)` as used on plain strings. -/
def isStrPrefix (p s : String) : Bool := p.data.isPrefixOf s.data

/-- Embedding of Python `s[n:]`: drop the first `n` characters. -/
def strDrop (s : String) (n : Nat) : String := ⟨s.data.drop n⟩

/-- Embedding of Python `s.split(c)` for a single-character separator. -/
def splitChar (c : Char) : List Char → List (List Char)
  | [] => [[]]
  | x :: rest =>
      let r := splitChar c rest
      if x = c then [] :: r
      else
        match r with
        | h :: t => (x :: h) :: t
        | [] => [[x]]

/-- Embedding of Python `s.split(".")`. -/
def splitOnDot (s : String) : List String :=
  (splitChar '.' s.data).map (fun l => ⟨l⟩)

/-- Embedding of Python `s.replace(old, new, 1)` on character lists: replace
the first occurrence of `old` by `new`. -/
def pyReplaceFirstAux (old new : List Char) : List Char → List Char
  | [] => if old.isEmpty then new else []
  | c :: rest =>
      if old.isPrefixOf (c :: rest) then new ++ (c :: rest).drop old.length
      else c :: pyReplaceFirstAux old new rest

/-- Embedding of Python `s.replace(old, new, 1)` on strings. -/
def pyReplace1 (s old new : String) : String :=
  ⟨pyReplaceFirstAux old.data new.data s.data⟩

/-- Embedding of Python `re.sub(r"\(.*\)", repl, s)`: the regex matches from
the first opening parenthesis that is followed by a closing one, greedily up
to the last closing parenthesis; the remainder holds no further closing
parenthesis, so a single replacement happens. -/
def subParens (repl : List Char) : List Char → List Char
  | [] => []
  | c :: rest =>
      if c = '(' && rest.contains ')' then
        repl ++ rest.drop (rest.length - rest.reverse.indexOf ')')
      else c :: subParens repl rest

/-! ### Name resolver (`resolve_import_alias`, `get_full_import_name`,
`resolve_qualname`, `_resolve_annot`) -/

/-- Data of an astroid `ImportFrom` node: the `from modname import names`
statement, with `level` the number of leading dots of a relative import
(`0` for an absolute import) and `names` the `(original, alias)` pairs. -/
structure ImportFromData where
  modname : String
  level : Nat
  names : List (String × Option String)
deriving DecidableEq, Repr

/-- One candidate binding site returned by the astroid scope lookup, as
discriminated by the `isinstance` checks of `resolve_qualname`.  The
`other` constructor stands for any node kind matching none of the four
checks. -/
inductive Binding where
  | importFrom (data : ImportFromData)
  | imp (names : List (String × Option String))
  | classDef (qname : String)
  | assignName (scopeQname : String) (name : String)
  | other
deriving DecidableEq, Repr

/-- Resolution context of one parsed module: the module qualified name
(`node.root().name`), whether the module is a package, and the scope lookup
(`lookup_node.lookup(name)[1]`) as a map from a name to its candidate
binding sites. -/
structure ModuleCtx where
  rootName : String
  rootIsPackage : Bool
  env : String → List Binding

/-- Embedding of `resolve_import_alias`: resolve a possibly aliased name from
an import statement back to the original imported name. -/
def resolve_import_alias (name : String) : List (String × Option String) → String
  | [] => name
  | (import_name, imported_as) :: rest =>
      if import_name = name then name
      else if imported_as = some name then import_name
      else resolve_import_alias name rest

/-- Modelled from the spec: astroid `Module.relative_to_absolute_name` is not
part of this repository; the spec states the absolute module path is computed
by resolving the relative-import level against the importing module own
path.  For a package one fewer trailing component is dropped; at least the
first component of the importing module path is kept. -/
def relativeToAbsoluteName (selfName : String) (isPackage : Bool)
    (modname : String) (level : Nat) : String :=
  let lvl := if isPackage then level - 1 else level
  let parts := splitOnDot selfName
  let packageName := String.intercalate "." (parts.take (max (parts.length - lvl) 1))
  if packageName = "" then modname
  else if modname = "" then packageName
  else packageName ++ "." ++ modname

/-- Embedding of `get_full_import_name`: the full path of a name imported by
a `from x import y` statement. -/
def get_full_import_name (ctx : ModuleCtx) (import_from : ImportFromData)
    (name : String) : String :=
  let partial_basename := resolve_import_alias name import_from.names
  let module_name :=
    if import_from.level ≠ 0 then
      relativeToAbsoluteName ctx.rootName ctx.rootIsPackage
        import_from.modname import_from.level
    else import_from.modname
  module_name ++ "." ++ partial_basename

/-- Embedding of the candidate loop of `resolve_qualname`: `full_basename`
starts as the basename, an `ImportFrom`, `Import` or `ClassDef` binding sets
it and breaks, an `AssignName` binding overwrites it and continues, and any
other binding kind is skipped. -/
def resolveLoop (ctx : ModuleCtx) (basename top_level_name full_basename : String) :
    List Binding → String
  | [] => full_basename
  | .importFrom d :: _ =>
      pyReplace1 basename top_level_name (get_full_import_name ctx d top_level_name)
  | .imp names :: _ =>
      pyReplace1 basename top_level_name (resolve_import_alias top_level_name names)
  | .classDef qname :: _ => qname
  | .assignName scopeQname n :: rest =>
      resolveLoop ctx basename top_level_name (scopeQname ++ "." ++ n) rest
  | .other :: rest =>
      resolveLoop ctx basename top_level_name full_basename rest

/-- Embedding of `resolve_qualname`: resolve where a node is defined to get
its fully qualified name.  `isCall` records whether the node is an astroid
`Call`, in which case trailing parenthesised arguments collapse to `()`. -/
def resolve_qualname (ctx : ModuleCtx) (isCall : Bool) (basename : String) : String :=
  let top_level_name := strFirstSeg ⟨subParens [] basename.data⟩
  let assigns := ctx.env top_level_name
  let full := resolveLoop ctx basename top_level_name basename assigns
  let full := if isCall then (⟨subParens ['(', ')'] full.data⟩ : String) else full
  if isStrPrefix "builtins." full then strDrop full "builtins.".length
  else if isStrPrefix "__builtin__." full then strDrop full "__builtin__.".length
  else full

/-- Base-class expression of a class definition, covering the annotation
node kinds reached by class bases in stub files: a plain `Name` node or a
dotted `Attribute` node rendered `as_string`. -/
inductive PyBase where
  | name (s : String)
  | attr (s : String)
deriving DecidableEq, Repr

/-- Embedding of `_resolve_annot` on base-class expressions: both the
`Name` and the `Attribute` arm call `resolve_qualname` on the rendered name,
then a leading `typing.` prefix or a leading `<module>.` prefix of the
containing module is stripped. -/
def resolve_annot (ctx : ModuleCtx) (ann : PyBase) : String :=
  let resolved :=
    match ann with
    | .name s => resolve_qualname ctx false s
    | .attr s => resolve_qualname ctx false s
  if isStrPrefix "typing." resolved then strDrop resolved "typing.".length
  else
    let module_prefix := ctx.rootName ++ "."
    if isStrPrefix module_prefix resolved then strDrop resolved module_prefix.length
    else resolved

/-- Embedding of `get_full_basenames`: resolve the partial names of the bases
of a class to fully qualified names. -/
def get_full_basenames (ctx : ModuleCtx) (bases : List PyBase) : List String :=
  bases.map (resolve_annot ctx)

/-! ### Enum extractor (`Parser.parse_classdef`, `Parser.parse_module`) -/

/-- Target of an `AnnAssign` statement: a plain name, an attribute access, or
any other target kind. -/
inductive AssignTarget where
  | assignName (n : String)
  | assignAttr (attrname : String)
  | otherTarget
deriving DecidableEq, Repr

/-- Statement of a stub module or class body, restricted to the statement
kinds the extractor inspects: class definitions, annotated assignments and
anything else. -/
inductive PyStmt where
  | classdef (name : String) (bases : List PyBase) (body : List PyStmt)
  | annAssign (target : AssignTarget)
  | stmtOther

/-- Embedding of `Parser._get_qual_name`: the stack contents joined by dots,
followed by the member name. -/
def get_qual_name (stack : List String) (name : String) : String :=
  String.intercalate "." (stack ++ [name])

/-- Embedding of `Parser._parse_enum_member`: an `AssignAttr` target is not a
member definition, a missing or empty target name is skipped, and a plain
name target produces one `(member, qualified name)` pair. -/
def parse_enum_member (stack : List String) : AssignTarget → List (String × String)
  | .assignAttr _ => []
  | .assignName n => if n = "" then [] else [(n, get_qual_name stack n)]
  | .otherTarget => []

/-- The enum branch of `parse_classdef`: every direct body statement that is
an annotated assignment contributes its member pairs. -/
def enum_members (stack : List String) : List PyStmt → List (String × String)
  | [] => []
  | .annAssign target :: rest => parse_enum_member stack target ++ enum_members stack rest
  | _ :: rest => enum_members stack rest

mutual

/-- Embedding of `Parser.parse_classdef` with the mutable qualified-name
stack threaded explicitly: push the class name, collect member pairs if any
resolved base is rooted at `enum`, otherwise recurse into directly nested
class definitions, then pop. -/
def parse_classdef (ctx : ModuleCtx) (stack : List String) :
    PyStmt → List String × List (String × String)
  | .classdef name bases body =>
      let stack1 := stack ++ [name]
      let (stack2, results) :=
        if (get_full_basenames ctx bases).any (fun base => strFirstSeg base = "enum") then
          (stack1, enum_members stack1 body)
        else
          parse_nested ctx stack1 body
      (stack2.dropLast, results)
  | _ => (stack, [])

/-- The non-enum branch of `parse_classdef` and the child loop of
`parse_module`: visit directly nested class definitions only, threading the
stack state left to right. -/
def parse_nested (ctx : ModuleCtx) (stack : List String) :
    List PyStmt → List String × List (String × String)
  | [] => (stack, [])
  | st :: rest =>
      match st with
      | .classdef n bs bd =>
          let (s1, r1) := parse_classdef ctx stack (.classdef n bs bd)
          let (s2, r2) := parse_nested ctx s1 rest
          (s2, r1 ++ r2)
      | _ => parse_nested ctx stack rest

end

/-- Embedding of `Parser.parse_module`: reset the stack to the last dotted
segment of the module name, then visit the module children that are class
definitions. -/
def parse_module (ctx : ModuleCtx) (modName : String) (children : List PyStmt) :
    List String × List (String × String) :=
  let name := (splitOnDot modName).getLastD ""
  parse_nested ctx [name] children

/-! ### Substitution compiler (`_sort_key`, `_to_sed_script`) -/

/-- Embedding of `_PREFFERED_QT_MODULES`. -/
def preferredQtModules : List String := ["QtCore", "QtGui", "QtWidgets"]

/-- Embedding of `_sort_key`: the ascending sort key of one substitution
pair, namely the negated member-name length, the member name, membership of
the leading segment of the qualified name in the preferred Qt modules, and
the qualified name. -/
def sort_key (p : String × String) : Int × String × Bool × String :=
  (-(p.1.length : Int), p.1, preferredQtModules.contains (strFirstSeg p.2), p.2)

/-- The sort key recast into a lexicographic product, so that the Python
tuple comparison is the linear order of the type; string components are
compared as their character lists, which is exactly the code-point
lexicographic comparison Python applies to strings. -/
def sortKeyL (p : String × String) : Lex (Int × Lex (List Char × Lex (Bool × List Char))) :=
  toLex ((sort_key p).1,
    toLex ((sort_key p).2.1.data, toLex ((sort_key p).2.2.1, (sort_key p).2.2.2.data)))

/-- Comparison relation of the Python `sorted(substitutions, key=_sort_key)`
call: tuple keys compared lexicographically. -/
def sortLE (a b : String × String) : Prop := sortKeyL a ≤ sortKeyL b

instance : DecidableRel sortLE := fun a b =>
  inferInstanceAs (Decidable (sortKeyL a ≤ sortKeyL b))

instance : IsTotal (String × String) sortLE := ⟨fun a b => le_total (sortKeyL a) (sortKeyL b)⟩

instance : IsTrans (String × String) sortLE := ⟨fun _ _ _ hab hbc => le_trans hab hbc⟩

/-- Embedding of `sorted(substitutions, key=_sort_key)`: Python `sorted` is
the stable sort by the key, rendered as a stable insertion sort. -/
def sortedSubs (substitutions : List (String × String)) : List (String × String) :=
  List.insertionSort sortLE substitutions

/-- The generic-occurrence rule line emitted for one pair: a boundary-aware
global substitution of `<base>.<member>` by the qualified name, where the
base may not start with `Q` nor have `t` or an upper-case letter as its
second character. -/
def genericRule (member qual_name : String) : String :=
  "s/([^a-zA-Z0-9_.]|^)[a-zA-PR-Z0-9_.]([a-su-z0-9_.][a-zA-Z0-9_.]*)?\\." ++ member ++
    "([^a-zA-Z0-9_.]|$)/\\1" ++ qual_name ++ "\\3/g"

/-- The two-level legacy-path rule line emitted for one pair: a substitution
of `<anything>.<old>` where `old` drops the second-to-last segment of the
qualified name. -/
def twoLevelRule (qual_name : String) : String :=
  let qual_parts := splitOnDot qual_name
  let old := String.intercalate "." (qual_parts.take (qual_parts.length - 2)) ++ "." ++
    qual_parts.getLastD ""
  "s/([^a-zA-Z0-9_.]|^)[a-zA-Z0-9_.]+\\." ++ old ++ "([^a-zA-Z0-9_.]|$)/\\1" ++
    qual_name ++ "\\2/g"

/-- Embedding of one `member_qual_names[member].append(qual_name)` step on
the insertion-ordered dictionary: append to the first entry with the key, or
add a new entry at the end. -/
def addToGroups : List (String × List String) → String → String → List (String × List String)
  | [], m, q => [(m, [q])]
  | (k, qs) :: rest, m, q =>
      if k = m then (k, qs ++ [q]) :: rest
      else (k, qs) :: addToGroups rest m q

/-- The grouping loop of `_to_sed_script` threaded over the sorted pair
list. -/
def groupAux : List (String × List String) → List (String × String) → List (String × List String)
  | acc, [] => acc
  | acc, (m, q) :: rest => groupAux (addToGroups acc m q) rest

/-- Embedding of the `member_qual_names` dictionary of `_to_sed_script`: the
qualified names of each member, grouped in insertion order over the sorted
pair list. -/
def groupByMember (l : List (String × String)) : List (String × List String) :=
  groupAux [] l

/-- The ambiguity warning line printed to the diagnostic stream for one
member with more than one qualified name: it names the member, the last
qualified name of the sorted order as the one that will be used, and all
candidates. -/
def warningLine (member : String) (qual_names : List String) : String :=
  "* Will substitute `" ++ member ++ "` to `" ++ qual_names.getLastD "" ++
    "`, but could be any of `" ++ String.intercalate "`, `" qual_names ++ "`"

/-- The warning entries of one compilation: the groups of `groupByMember`
holding more than one qualified name. -/
def warnEntries (substitutions : List (String × String)) : List (String × List String) :=
  (groupByMember (sortedSubs substitutions)).filter (fun g => 1 < g.2.length)

/-- Embedding of `_to_sed_script`: the ordered rule lines (two per sorted
pair) together with the warning lines written to the diagnostic stream. -/
def to_sed_script (substitutions : List (String × String)) : List String × List String :=
  let sorted := sortedSubs substitutions
  let result := sorted.flatMap (fun p => [genericRule p.1 p.2, twoLevelRule p.2])
  let warnings := (warnEntries substitutions).map (fun g => warningLine g.1 g.2)
  (result, warnings)

/-! ### Orchestration (`main`) -/

/-- The hard-coded initial substitution list of `main`. -/
def initial_substitutions : List (String × String) :=
  [("MidButton", "QtCore.Qt.MouseButton.MiddleButton")]

/-- Embedding of one iteration of the binding loop of `main`:
`old, new = binding.split(",")` raises `ValueError` unless the split has
exactly two parts, then the two import-rewrite lines are printed. -/
def bindingLines (binding : String) : Except String (List String) :=
  match (splitChar ',' binding.data).map (fun l => (⟨l⟩ : String)) with
  | [old, new] =>
      .ok ["s/import " ++ old ++ "/import " ++ new ++ "/",
           "s/from " ++ old ++ " import/from " ++ new ++ " import/"]
  | _ => .error "ValueError: not enough values to unpack"

/-- Embedding of `main` after file collection: `binding` is the parsed
`-b` arguments, which argparse leaves as `None` when the option is absent,
and `fileSubs` the pairs extracted from the processed stub files.  The
result is the list of lines printed to standard output, or the uncaught
exception: iterating over a `None` binding list raises `TypeError` before
any line is printed. -/
def mainOutput (binding : Option (List String)) (fileSubs : List (String × String)) :
    Except String (List String) :=
  let substitutions := initial_substitutions ++ fileSubs
  let sed_script := (to_sed_script substitutions).1
  match binding with
  | none => .error "TypeError: NoneType object is not iterable"
  | some bs => do
      let blocks ← bs.mapM bindingLines
      pure (blocks.flatten ++ sed_script)

/-! ### Semantics of the generic-occurrence rule under sed

The emitted generic rule is
`s/([^a-zA-Z0-9_.]|^)BASE\.MEMBER([^a-zA-Z0-9_.]|$)/\1QUAL\3/g` with
`BASE = [a-zA-PR-Z0-9_.]([a-su-z0-9_.][a-zA-Z0-9_.]*)?`.  Modelled from the
spec: the sed interpreter is external to the repository; the spec describes
each rule as a global, boundary-anchored find/replace preserving the
captured boundary characters.  Because every character of `BASE`, the dot
and `MEMBER` lies in `[a-zA-Z0-9_.]` while both boundaries exclude that
class, a match consumes one maximal identifier-and-dot run bracketed by
boundaries, and the run must factor exactly as `BASE ++ "." ++ MEMBER`. -/

/-- The identifier-or-dot character class `[a-zA-Z0-9_.]` of the emitted
patterns. -/
def isIdentDot (c : Char) : Bool := c.isAlpha || c.isDigit || c = '_' || c = '.'

/-- The first-character class `[a-zA-PR-Z0-9_.]` of the base pattern: any
identifier-or-dot character except the upper-case `Q`. -/
def isBaseFirstChar (c : Char) : Bool := isIdentDot c && c != 'Q'

/-- The second-character class `[a-su-z0-9_.]` of the base pattern: a
lower-case letter other than `t`, a digit, an underscore or a dot. -/
def isBaseSecondChar (c : Char) : Bool :=
  (c.isLower && c != 't') || c.isDigit || c = '_' || c = '.'

/-- Whether a character list matches the base pattern
`[a-zA-PR-Z0-9_.]([a-su-z0-9_.][a-zA-Z0-9_.]*)?` in full. -/
def validBase : List Char → Bool
  | [] => false
  | [c] => isBaseFirstChar c
  | c :: d :: rest => isBaseFirstChar c && isBaseSecondChar d && rest.all isIdentDot

/-- Whether a maximal identifier-and-dot run is matched by the generic rule
body: the run must end in `.member` and the remaining front must match the
base pattern. -/
def matchRun (member run : List Char) : Bool :=
  decide (member.length + 2 ≤ run.length) &&
    decide (run.drop (run.length - member.length - 1) = '.' :: member) &&
    validBase (run.take (run.length - member.length - 1))

/-- A token of the scanned text: a maximal nonempty run of identifier-or-dot
characters, or a single character outside that class. -/
inductive Tok where
  | run (cs : List Char)
  | sep (c : Char)

/-- Split text into maximal identifier-and-dot runs and single boundary
characters. -/
def tokenize : List Char → List Tok
  | [] => []
  | c :: rest =>
      let ts := tokenize rest
      if isIdentDot c then
        match ts with
        | .run r :: ts2 => .run (c :: r) :: ts2
        | _ => .run [c] :: ts
      else .sep c :: ts

/-- Global substitution of the generic rule over the token stream.  A match
needs a leading boundary (start of text, or a separator character that has
not been consumed by a previous match), a run matched by `matchRun`, and a
trailing boundary (end of text or a separator, which the match consumes);
the replacement keeps both boundary characters and substitutes the
qualified name for the run, exactly as the backreferences `\1` and `\3` of
the emitted rule do. -/
def subTokensCont (member qual : List Char) : List Tok → List Char
  | [] => []
  | .run r :: ts => r ++ subTokensCont member qual ts
  | [.sep c] => [c]
  | .sep c :: .sep d :: ts => c :: subTokensCont member qual (.sep d :: ts)
  | [.sep c, .run r] => if matchRun member r then c :: qual else c :: r
  | .sep c :: .run r :: .sep d :: ts =>
      if matchRun member r then c :: (qual ++ d :: subTokensCont member qual ts)
      else c :: (r ++ subTokensCont member qual (.sep d :: ts))
  | .sep c :: .run r :: .run r2 :: ts =>
      c :: (r ++ subTokensCont member qual (.run r2 :: ts))

/-- Substitution at the very start of the text, where the `^` alternative of
the leading boundary provides an empty boundary before a leading run. -/
def subTokensStart (member qual : List Char) : List Tok → List Char
  | .run r :: ts =>
      if matchRun member r then
        match ts with
        | [] => qual
        | .sep d :: ts2 => qual ++ d :: subTokensCont member qual ts2
        | .run _ :: _ => r ++ subTokensCont member qual ts
      else r ++ subTokensCont member qual ts
  | ts => subTokensCont member qual ts

/-- The action of the emitted generic-occurrence rule of a pair on a text,
under sed `s///g` semantics. -/
def applyGeneric (member qual text : List Char) : List Char :=
  subTokensStart member qual (tokenize text)

/-! ### Auxiliary predicates and concrete instances used by the theorems -/

/-- Whether a binding is a simple name assignment. -/
def isAssignName : Binding → Bool
  | .assignName _ _ => true
  | _ => false

/-- Whether a statement is a class definition. -/
def isClassdefStmt : PyStmt → Bool
  | .classdef _ _ _ => true
  | _ => false

/-- Whether a string holds no opening parenthesis, so that the
call-argument stripping of `resolve_qualname` leaves it unchanged. -/
def noParens (s : String) : Bool := !(s.data.contains '(')

/-- The qualified names mapped to a member by a pair list, in list order. -/
def valsOf (k : String) (l : List (String × String)) : List String :=
  (l.filter (fun p => p.1 == k)).map (fun p => p.2)

/-- Append values to the first group of a filtered group list, or start a
fresh group; the accumulator shape of the grouping loop. -/
def glueGroup (k : String) : List (String × List String) → List String → List (String × List String)
  | [], vs => if vs.isEmpty then [] else [(k, vs)]
  | (k2, ws) :: t, vs => (k2, ws ++ vs) :: t

/-- Resolution context of the end-to-end example: the stub module
`QtWidgets` with an empty binding environment. -/
def exampleCtx : ModuleCtx := ⟨"QtWidgets", false, fun _ => []⟩

/-- A module context with one relative `from . import y as x` binding for
the name `x`, preceded by one unrecognised binding. -/
def importCtx : ModuleCtx :=
  ⟨"pkg.mod", false,
    fun n => if n = "x" then [.other, .importFrom ⟨"m", 1, [("y", some "x")]⟩] else []⟩

/-- The top-level class of the end-to-end example: a class
`QAbstractItemView` holding a nested class `SelectionMode(enum.Enum)` with
one annotated member `MultiSelection`. -/
def exampleClass : PyStmt :=
  .classdef ("QAbstractItemView") []
    [.classdef ("SelectionMode") [.attr "enum.Enum"]
      [.annAssign (.assignName "MultiSelection")]]

/-- Children of the end-to-end example module. -/
def exampleBody : List PyStmt := [exampleClass]

/-- The qualified name produced by the end-to-end example. -/
def exampleQual : String := "QtWidgets.QAbstractItemView.SelectionMode.MultiSelection"

/-- The member of the end-to-end example as a character list. -/
def mselChars : List Char := "MultiSelection".toList

/-- The qualified name of the end-to-end example as a character list. -/
def qselChars : List Char := exampleQual.toList

/-! ### Extractor lemmas -/

/-- Both extractor functions leave the threaded qualified-name stack exactly
as they received it: one push on entry, one pop on exit. -/
theorem parse_stack_eq (ctx : ModuleCtx) :
    (∀ (stack : List String) (st : PyStmt), (parse_classdef ctx stack st).1 = stack) ∧
    (∀ (stack : List String) (l : List PyStmt), (parse_nested ctx stack l).1 = stack) := by
  apply parse_classdef.mutual_induct ctx
    (motive_1 := fun stack st => (parse_classdef ctx stack st).1 = stack)
    (motive_2 := fun stack l => (parse_nested ctx stack l).1 = stack)
  · intro stack name bases body stack1 stack2 results hif ih
    have h2 : stack2 = stack ++ [name] := by
      split at hif
      · exact ((Prod.mk.injEq _ _ _ _).mp hif).1.symm
      · rw [hif] at ih
        exact ih
    simp only [parse_classdef, hif]
    rw [h2]
    simp
  · intro t stack h
    cases t with
    | classdef n bs bd => exact absurd rfl (h n bs bd)
    | annAssign tg => simp [parse_classdef]
    | stmtOther => simp [parse_classdef]
  · intro stack
    simp [parse_nested]
  · intro stack rest name bases body stack2 results hpc s2 r2 hpn ih1 ih2
    rw [hpc] at ih1
    rw [hpn] at ih2
    simp only [parse_nested, hpc, hpn]
    simp at ih1 ih2 ⊢
    rw [ih2, ih1]
  · intro stack st rest h ih
    cases st with
    | classdef n bs bd => exact absurd rfl (h n bs bd)
    | annAssign tg => simpa [parse_nested] using ih
    | stmtOther => simpa [parse_nested] using ih

/-- Every pair collected from the enum branch is qualified by the current
stack joined with dots. -/
theorem enum_members_qual (stack : List String) (body : List PyStmt) :
    ∀ m q : String, (m, q) ∈ enum_members stack body → q = get_qual_name stack m := by
  induction body with
  | nil => intro m q h; simp [enum_members] at h
  | cons st rest ih =>
      intro m q h
      cases st with
      | classdef n bs bd =>
          rw [show enum_members stack (.classdef n bs bd :: rest) = enum_members stack rest from rfl] at h
          exact ih m q h
      | stmtOther =>
          rw [show enum_members stack (.stmtOther :: rest) = enum_members stack rest from rfl] at h
          exact ih m q h
      | annAssign tg =>
          simp only [enum_members] at h
          rcases List.mem_append.mp h with h1 | h2
          · cases tg with
            | assignAttr a => simp [parse_enum_member] at h1
            | otherTarget => simp [parse_enum_member] at h1
            | assignName n =>
                simp only [parse_enum_member] at h1
                split at h1
                · simp at h1
                · rw [List.mem_singleton] at h1
                  rw [Prod.mk.injEq] at h1
                  rw [h1.2, h1.1]
          · exact ih m q h2

/-- Every member pair produced below a class definition is qualified by the
entry stack, followed by the nonempty chain of class names leading to the
member, followed by the member name. -/
theorem parse_path_eq (ctx : ModuleCtx) :
    (∀ (stack : List String) (st : PyStmt) (m q : String),
        (m, q) ∈ (parse_classdef ctx stack st).2 →
        ∃ path, path ≠ [] ∧ q = String.intercalate "." (stack ++ path ++ [m])) ∧
    (∀ (stack : List String) (l : List PyStmt) (m q : String),
        (m, q) ∈ (parse_nested ctx stack l).2 →
        ∃ path, path ≠ [] ∧ q = String.intercalate "." (stack ++ path ++ [m])) := by
  apply parse_classdef.mutual_induct ctx
    (motive_1 := fun stack st => ∀ m q, (m, q) ∈ (parse_classdef ctx stack st).2 →
      ∃ path, path ≠ [] ∧ q = String.intercalate "." (stack ++ path ++ [m]))
    (motive_2 := fun stack l => ∀ m q, (m, q) ∈ (parse_nested ctx stack l).2 →
      ∃ path, path ≠ [] ∧ q = String.intercalate "." (stack ++ path ++ [m]))
  · intro stack name bases body stack1 stack2 results hif ih
    intro m q hm
    simp only [parse_classdef, hif] at hm
    split at hif
    · have hres : results = enum_members (stack ++ [name]) body :=
        ((Prod.mk.injEq _ _ _ _).mp hif).2.symm
      rw [hres] at hm
      have := enum_members_qual (stack ++ [name]) body m q hm
      refine ⟨[name], by simp, ?_⟩
      rw [this, get_qual_name]
    · have hres : results = (parse_nested ctx stack1 body).2 := by
        rw [hif]
      rw [hres] at hm
      obtain ⟨path, hp, hq⟩ := ih m q hm
      refine ⟨name :: path, by simp, ?_⟩
      rw [hq]
      congr 1
      show (stack ++ [name]) ++ path ++ [m] = stack ++ name :: path ++ [m]
      simp
  · intro t stack h
    intro m q hm
    cases t with
    | classdef n bs bd => exact absurd rfl (h n bs bd)
    | annAssign tg => simp [parse_classdef] at hm
    | stmtOther => simp [parse_classdef] at hm
  · intro stack m q hm
    simp [parse_nested] at hm
  · intro stack rest name bases body stack2 results hpc s2 r2 hpn ih1 ih2
    intro m q hm
    have hs2 : stack2 = stack := by
      have := (parse_stack_eq ctx).1 stack (.classdef name bases body)
      rw [hpc] at this
      exact this
    simp only [parse_nested, hpc, hpn] at hm
    simp at hm
    rcases hm with hm | hm
    · have : (m, q) ∈ (parse_classdef ctx stack (.classdef name bases body)).2 := by
        rw [hpc]
        exact hm
      exact ih1 m q this
    · have : (m, q) ∈ (parse_nested ctx stack2 rest).2 := by
        rw [hpn]
        exact hm
      obtain ⟨path, hp, hq⟩ := ih2 m q this
      rw [hs2] at hq
      exact ⟨path, hp, hq⟩
  · intro stack st rest h ih
    intro m q hm
    cases st with
    | classdef n bs bd => exact absurd rfl (h n bs bd)
    | annAssign tg =>
        rw [show parse_nested ctx stack (.annAssign tg :: rest) = parse_nested ctx stack rest from rfl] at hm
        exact ih m q hm
    | stmtOther =>
        rw [show parse_nested ctx stack (.stmtOther :: rest) = parse_nested ctx stack rest from rfl] at hm
        exact ih m q hm

/-- A body without class definitions contributes nothing through
`parse_nested`. -/
theorem parse_nested_no_classdef (ctx : ModuleCtx) :
    ∀ (l : List PyStmt) (stack : List String), (∀ st ∈ l, isClassdefStmt st = false) →
      parse_nested ctx stack l = (stack, []) := by
  intro l
  induction l with
  | nil => intro stack _; rfl
  | cons st rest ih =>
      intro stack h
      cases st with
      | classdef n bs bd =>
          have := h (.classdef n bs bd) (by simp)
          simp [isClassdefStmt] at this
      | annAssign tg =>
          rw [show parse_nested ctx stack (.annAssign tg :: rest) = parse_nested ctx stack rest from rfl]
          exact ih stack (fun st hs => h st (by simp [hs]))
      | stmtOther =>
          rw [show parse_nested ctx stack (.stmtOther :: rest) = parse_nested ctx stack rest from rfl]
          exact ih stack (fun st hs => h st (by simp [hs]))

/-- C9: the qualified-name stack is balanced across traversal: every call to
`parse_classdef` (and `parse_nested`) returns the stack exactly as received,
so the stack depth during extraction is the module entry plus the current
class-nesting depth; and every member pair is qualified by the entry stack
followed by the chain of class names reaching the member, joined by dots,
followed by the bare member name. -/
theorem C9_stack_invariant :
    (∀ (ctx : ModuleCtx) (stack : List String) (st : PyStmt),
        (parse_classdef ctx stack st).1 = stack)
  ∧ (∀ (ctx : ModuleCtx) (stack : List String) (l : List PyStmt),
        (parse_nested ctx stack l).1 = stack)
  ∧ (∀ (ctx : ModuleCtx) (stack : List String) (st : PyStmt) (m q : String),
        (m, q) ∈ (parse_classdef ctx stack st).2 →
        ∃ path, path ≠ [] ∧ q = String.intercalate "." (stack ++ path ++ [m])) :=
  ⟨fun ctx => (parse_stack_eq ctx).1, fun ctx => (parse_stack_eq ctx).2,
    fun ctx => (parse_path_eq ctx).1⟩

/-- Witness for C9 at the end-to-end example class. -/
theorem C9_stack_invariant_witness :
    ∃ path, path ≠ [] ∧
      exampleQual = String.intercalate "." (["QtWidgets"] ++ path ++ ["MultiSelection"]) :=
  C9_stack_invariant.2.2 exampleCtx ["QtWidgets"] exampleClass "MultiSelection" exampleQual
    (by decide)

/-- C5: a class definition none of whose resolved base names is rooted at
`enum` yields no member pairs from its own body, annotated assignments
included; only directly nested class definitions are visited further. -/
theorem C5_non_enum_class :
    ∀ (ctx : ModuleCtx) (stack : List String) (name : String) (bases : List PyBase)
      (body : List PyStmt),
    (∀ base ∈ get_full_basenames ctx bases, strFirstSeg base ≠ "enum") →
    ((parse_classdef ctx stack (.classdef name bases body)).2
        = (parse_nested ctx (stack ++ [name]) body).2
     ∧ ((∀ st ∈ body, isClassdefStmt st = false) →
          (parse_classdef ctx stack (.classdef name bases body)).2 = [])) := by
  intro ctx stack name bases body h
  have hcond : ((get_full_basenames ctx bases).any
      fun base => decide (strFirstSeg base = "enum")) = false := by
    rw [List.any_eq_false]
    intro base hb
    simp [h base hb]
  have hmain : (parse_classdef ctx stack (.classdef name bases body)).2
      = (parse_nested ctx (stack ++ [name]) body).2 := by
    simp only [parse_classdef, hcond]
    simp
  refine ⟨hmain, fun h2 => ?_⟩
  rw [hmain, parse_nested_no_classdef ctx body (stack ++ [name]) h2]

/-- Witness for C5 at a concrete non-enum class with an annotated
assignment in its body. -/
theorem C5_non_enum_class_witness :
    (parse_classdef exampleCtx []
      (.classdef ("C") [.name "object"] [.annAssign (.assignName "X")])).2 = [] :=
  (C5_non_enum_class exampleCtx [] "C" [.name "object"] [.annAssign (.assignName "X")]
    (by decide)).2 (by decide)

/-! ### Substitution compiler lemmas -/

/-- A smaller sort key means a member name at least as long: the first key
component is the negated member-name length. -/
theorem sortLE_length {a b : String × String} (h : sortLE a b) : b.1.length ≤ a.1.length := by
  simp only [sortLE, sortKeyL] at h
  rcases (Prod.Lex.le_iff _ _).mp h with h1 | ⟨h1, _⟩
  · simp only [sort_key] at h1
    omega
  · simp only [sort_key] at h1
    omega

/-- The sorted pair list is sorted by the key relation. -/
theorem sorted_sortedSubs (subs : List (String × String)) :
    List.Sorted sortLE (sortedSubs subs) :=
  List.sorted_insertionSort sortLE subs

/-- The sorted pair list is a permutation of the input pairs. -/
theorem perm_sortedSubs (subs : List (String × String)) :
    (sortedSubs subs).Perm subs :=
  List.perm_insertionSort sortLE subs

/-- Each pair of the sorted list contributes its generic-occurrence rule to
the compiled rule list. -/
theorem genericRule_mem_sorted {subs : List (String × String)} {m q : String}
    (h : (m, q) ∈ sortedSubs subs) : genericRule m q ∈ (to_sed_script subs).1 := by
  simp only [to_sed_script]
  exact List.mem_flatMap.mpr ⟨(m, q), h, by simp⟩

/-- Each input pair contributes its generic-occurrence rule to the compiled
rule list. -/
theorem genericRule_mem {subs : List (String × String)} {m q : String}
    (h : (m, q) ∈ subs) : genericRule m q ∈ (to_sed_script subs).1 :=
  genericRule_mem_sorted ((perm_sortedSubs subs).mem_iff.mpr h)

/-- Each input pair contributes its two-level legacy-path rule to the
compiled rule list. -/
theorem twoLevelRule_mem {subs : List (String × String)} {m q : String}
    (h : (m, q) ∈ subs) : twoLevelRule q ∈ (to_sed_script subs).1 := by
  simp only [to_sed_script]
  exact List.mem_flatMap.mpr ⟨(m, q), (perm_sortedSubs subs).mem_iff.mpr h, by simp⟩

/-- C3: the compiled rule list is the sorted pair list with two rules per
pair, the sorted list is ordered by the ascending key (negated member-name
length, member name, preferred-module membership, qualified name), pairs
with longer member names come before pairs with shorter ones, and sorting
permutes the input. -/
theorem C3_sort_order : ∀ subs : List (String × String),
    (to_sed_script subs).1
        = (sortedSubs subs).flatMap (fun p => [genericRule p.1 p.2, twoLevelRule p.2])
  ∧ List.Sorted sortLE (sortedSubs subs)
  ∧ List.Pairwise (fun a b : String × String => b.1.length ≤ a.1.length) (sortedSubs subs)
  ∧ (sortedSubs subs).Perm subs := by
  intro subs
  refine ⟨rfl, sorted_sortedSubs subs, ?_, perm_sortedSubs subs⟩
  exact (sorted_sortedSubs subs).imp (fun h => sortLE_length h)

/-- C6: the two substitution rules of the hard-coded pair
`("MidButton", "QtCore.Qt.MouseButton.MiddleButton")` are in the compiled
rule list whatever pairs the input files contribute, and in every
successful `main` output. -/
theorem C6_hardcoded_pair : ∀ fileSubs : List (String × String),
    (genericRule "MidButton" "QtCore.Qt.MouseButton.MiddleButton"
         ∈ (to_sed_script (initial_substitutions ++ fileSubs)).1
      ∧ twoLevelRule "QtCore.Qt.MouseButton.MiddleButton"
         ∈ (to_sed_script (initial_substitutions ++ fileSubs)).1)
  ∧ ∀ (bindings : List String) (out : List String),
      mainOutput (some bindings) fileSubs = Except.ok out →
      genericRule "MidButton" "QtCore.Qt.MouseButton.MiddleButton" ∈ out
      ∧ twoLevelRule "QtCore.Qt.MouseButton.MiddleButton" ∈ out := by
  intro fileSubs
  have hmem : ("MidButton", "QtCore.Qt.MouseButton.MiddleButton")
      ∈ initial_substitutions ++ fileSubs := by
    simp [initial_substitutions]
  refine ⟨⟨genericRule_mem hmem, twoLevelRule_mem hmem⟩, ?_⟩
  intro bindings out h
  simp only [mainOutput] at h
  cases hm : bindings.mapM bindingLines with
  | error e =>
      rw [hm] at h
      simp [Bind.bind, Except.bind] at h
  | ok blocks =>
      rw [hm] at h
      simp only [Bind.bind, Except.bind, pure, Except.pure, Except.ok.injEq] at h
      rw [← h]
      exact ⟨List.mem_append_right _ (genericRule_mem hmem),
        List.mem_append_right _ (twoLevelRule_mem hmem)⟩

/-- Witness for C6 at an invocation with an empty binding list and no file
pairs. -/
theorem C6_hardcoded_pair_witness :
    mainOutput (some []) [] = Except.ok (to_sed_script (initial_substitutions ++ [])).1
  ∧ (genericRule "MidButton" "QtCore.Qt.MouseButton.MiddleButton"
        ∈ (to_sed_script (initial_substitutions ++ [])).1
     ∧ twoLevelRule "QtCore.Qt.MouseButton.MiddleButton"
        ∈ (to_sed_script (initial_substitutions ++ [])).1) :=
  ⟨rfl, (C6_hardcoded_pair []).2 [] _ rfl⟩

/-- Appending one value twice through `glueGroup` is appending the
two-element tail once. -/
theorem glueGroup_snoc (k q : String) (x : List (String × List String)) (vs : List String) :
    glueGroup k (glueGroup k x [q]) vs = glueGroup k x (q :: vs) := by
  cases x with
  | nil => simp [glueGroup]
  | cons g t =>
      obtain ⟨k2, ws⟩ := g
      simp [glueGroup]

/-- Gluing an empty value list changes nothing. -/
theorem glueGroup_nil (k : String) (x : List (String × List String)) :
    glueGroup k x [] = x := by
  cases x with
  | nil => simp [glueGroup]
  | cons g t =>
      obtain ⟨k2, ws⟩ := g
      simp [glueGroup]

/-- Effect of one dictionary-append step on the entries of a given key. -/
theorem addToGroups_filter (k : String) :
    ∀ (acc : List (String × List String)) (m q : String),
      (addToGroups acc m q).filter (fun g => g.1 == k) =
        if m = k then glueGroup k (acc.filter (fun g => g.1 == k)) [q]
        else acc.filter (fun g => g.1 == k) := by
  intro acc
  induction acc with
  | nil =>
      intro m q
      by_cases hmk : m = k
      · subst hmk
        simp [addToGroups, glueGroup]
      · simp [addToGroups, glueGroup, hmk]
  | cons g rest ih =>
      intro m q
      obtain ⟨k2, qs⟩ := g
      by_cases h2m : k2 = m
      · subst h2m
        by_cases hmk : k2 = k
        · subst hmk
          simp [addToGroups, glueGroup]
        · simp [addToGroups, List.filter_cons, hmk]
      · by_cases hmk : m = k
        · subst hmk
          have h2k : (k2 == m) = false := by
            simpa using fun hh => h2m hh
          simp [addToGroups, h2m, List.filter_cons, h2k, ih]
        · by_cases h2k : k2 = k
          · subst h2k
            simp [addToGroups, h2m, List.filter_cons, ih, hmk]
          · simp [addToGroups, h2m, List.filter_cons, h2k, ih, hmk]

/-- Effect of the whole grouping loop on the entries of a given key: the
values of the key found in the processed list are appended to its existing
group. -/
theorem groupAux_filter (k : String) :
    ∀ (l : List (String × String)) (acc : List (String × List String)),
      (groupAux acc l).filter (fun g => g.1 == k) =
        glueGroup k (acc.filter (fun g => g.1 == k)) (valsOf k l) := by
  intro l
  induction l with
  | nil =>
      intro acc
      simp [groupAux, valsOf, glueGroup_nil]
  | cons p rest ih =>
      intro acc
      obtain ⟨m, q⟩ := p
      by_cases hmk : m = k
      · subst hmk
        rw [show groupAux acc ((m, q) :: rest) = groupAux (addToGroups acc m q) rest from rfl]
        rw [ih, addToGroups_filter m acc m q, if_pos rfl, glueGroup_snoc]
        congr 1
        simp [valsOf, List.filter_cons]
      · rw [show groupAux acc ((m, q) :: rest) = groupAux (addToGroups acc m q) rest from rfl]
        rw [ih, addToGroups_filter k acc m q, if_neg hmk]
        congr 1
        have : (m == k) = false := by simpa using hmk
        simp [valsOf, List.filter_cons, this]

/-- The grouped dictionary holds, for each member, exactly one entry listing
the qualified names of that member in list order. -/
theorem groupByMember_filter (k : String) (l : List (String × String)) :
    (groupByMember l).filter (fun g => g.1 == k) =
      if valsOf k l = [] then [] else [(k, valsOf k l)] := by
  rw [groupByMember, groupAux_filter k l []]
  rw [show (([] : List (String × List String)).filter (fun g => g.1 == k)) = [] from rfl]
  cases h : valsOf k l with
  | nil => simp [glueGroup]
  | cons v vs => simp [glueGroup]

/-- A list with two different elements has length at least two. -/
theorem two_distinct_length {l : List String} {a b : String}
    (ha : a ∈ l) (hb : b ∈ l) (hab : a ≠ b) : 1 < l.length := by
  cases l with
  | nil => simp at ha
  | cons x t =>
      cases t with
      | nil =>
          simp at ha hb
          exact absurd (ha.trans hb.symm) hab
      | cons y t2 => simp

/-- C4: for a member mapped to more than one distinct qualified name, the
compiler emits exactly one warning entry on the diagnostic stream (it is a
total function, never failing): the entry names the member and lists all its
qualified-name candidates in sorted order, the rendered warning names the
last candidate of the sorted order as the substitution that will be used,
and the rule output keeps one generic-occurrence rule per qualified name. -/
theorem C4_ambiguity_warning : ∀ (subs : List (String × String)) (member : String),
    (∃ q1 ∈ valsOf member (sortedSubs subs), ∃ q2 ∈ valsOf member (sortedSubs subs), q1 ≠ q2) →
    ((warnEntries subs).filter (fun g => g.1 == member)
        = [(member, valsOf member (sortedSubs subs))]
     ∧ warningLine member (valsOf member (sortedSubs subs)) ∈ (to_sed_script subs).2
     ∧ warningLine member (valsOf member (sortedSubs subs))
         = "* Will substitute `" ++ member ++ "` to `"
             ++ (valsOf member (sortedSubs subs)).getLastD ""
             ++ "`, but could be any of `"
             ++ String.intercalate "`, `" (valsOf member (sortedSubs subs)) ++ "`"
     ∧ ∀ q ∈ valsOf member (sortedSubs subs), genericRule member q ∈ (to_sed_script subs).1) := by
  intro subs member h
  obtain ⟨q1, hq1, q2, hq2, hne⟩ := h
  have hlen : 1 < (valsOf member (sortedSubs subs)).length := two_distinct_length hq1 hq2 hne
  have hne2 : valsOf member (sortedSubs subs) ≠ [] := by
    intro hh
    rw [hh] at hlen
    simp at hlen
  have hgrp := groupByMember_filter member (sortedSubs subs)
  rw [if_neg hne2] at hgrp
  have hfil : (warnEntries subs).filter (fun g => g.1 == member)
      = [(member, valsOf member (sortedSubs subs))] := by
    rw [warnEntries, List.filter_filter]
    have hcomm : ∀ g ∈ groupByMember (sortedSubs subs),
        ((g.1 == member) && decide (1 < g.2.length))
          = (decide (1 < g.2.length) && (g.1 == member)) := by
      intro g _
      exact Bool.and_comm _ _
    rw [List.filter_congr hcomm, ← List.filter_filter, hgrp]
    simp [List.filter_cons, hlen]
  refine ⟨hfil, ?_, rfl, ?_⟩
  · have hmem : (member, valsOf member (sortedSubs subs)) ∈ warnEntries subs := by
      apply List.mem_of_mem_filter (p := fun g => g.1 == member)
      rw [hfil]
      simp
    exact List.mem_map.mpr ⟨(member, valsOf member (sortedSubs subs)), hmem, rfl⟩
  · intro q hq
    obtain ⟨p, hp, hpq⟩ := List.mem_map.mp hq
    obtain ⟨hpmem, hbeq⟩ := List.mem_filter.mp hp
    have hp1 : p.1 = member := by simpa using hbeq
    have : (member, q) ∈ sortedSubs subs := by
      have : p = (member, q) := by
        obtain ⟨a, b⟩ := p
        simp only at hp1 hpq
        rw [hp1, hpq]
      rw [← this]
      exact hpmem
    exact genericRule_mem_sorted this

/-- Witness for C4 at a two-pair input sharing the member `A`. -/
theorem C4_ambiguity_warning_witness :
    (warnEntries [("A", "QtCore.X.M.A"), ("A", "QtGui.Y.N.A")]).filter (fun g => g.1 == "A")
      = [("A", valsOf "A" (sortedSubs [("A", "QtCore.X.M.A"), ("A", "QtGui.Y.N.A")]))] :=
  (C4_ambiguity_warning [("A", "QtCore.X.M.A"), ("A", "QtGui.Y.N.A")] "A" (by decide)).1

/-! ### Orchestration and resolver claims -/

/-- C2: the claim that an invocation with zero binding pairs still succeeds
is contradicted by the code: argparse leaves `args.binding` as `None` when
no `-b` option is given, and `main` iterates over it, raising `TypeError`
before any rule line reaches standard output, whatever the input files
contributed; whereas one supplied pair `OLD,NEW` prints exactly the two
import-rewrite lines, in that order, ahead of every enum substitution
rule. -/
theorem C2_zero_bindings_crash :
    (∀ fileSubs : List (String × String),
        mainOutput none fileSubs
          = Except.error "TypeError: NoneType object is not iterable")
  ∧ mainOutput (some ["PySide2,PySide6"]) []
      = Except.ok ("s/import PySide2/import PySide6/"
          :: "s/from PySide2 import/from PySide6 import/"
          :: (to_sed_script (initial_substitutions ++ [])).1) :=
  ⟨fun _ => rfl, rfl⟩

/-- C7: in the candidate loop of `resolve_qualname`, a simple name
assignment does not stop the iteration but overwrites the running result,
so with only assignment candidates the last one visited determines the
returned qualified name `<scope qualified name>.<assigned name>`, whereas a
from-import, an import or a class-definition binding returns at once,
whatever follows it. -/
theorem C7_assignment_loop :
    ∀ (ctx : ModuleCtx) (basename top acc : String),
    (∀ (s n : String) (rest : List Binding),
        resolveLoop ctx basename top acc (.assignName s n :: rest)
          = resolveLoop ctx basename top (s ++ "." ++ n) rest)
  ∧ (∀ (l : List Binding) (s n : String),
        l.all isAssignName = true → l.getLast? = some (.assignName s n) →
        resolveLoop ctx basename top acc l = s ++ "." ++ n)
  ∧ (∀ (d : ImportFromData) (rest : List Binding),
        resolveLoop ctx basename top acc (.importFrom d :: rest)
          = pyReplace1 basename top (get_full_import_name ctx d top))
  ∧ (∀ (names : List (String × Option String)) (rest : List Binding),
        resolveLoop ctx basename top acc (.imp names :: rest)
          = pyReplace1 basename top (resolve_import_alias top names))
  ∧ (∀ (q : String) (rest : List Binding),
        resolveLoop ctx basename top acc (.classDef q :: rest) = q) := by
  intro ctx basename top acc
  refine ⟨fun s n rest => rfl, ?_, fun d rest => rfl, fun names rest => rfl,
    fun q rest => rfl⟩
  intro l
  induction l generalizing acc with
  | nil =>
      intro s n _ hlast
      simp at hlast
  | cons b rest ih =>
      intro s n hall hlast
      rw [List.all_cons, Bool.and_eq_true] at hall
      cases b with
      | assignName s2 n2 =>
          cases rest with
          | nil =>
              simp only [List.getLast?_singleton, Option.some.injEq,
                Binding.assignName.injEq] at hlast
              rw [show resolveLoop ctx basename top acc [.assignName s2 n2]
                  = s2 ++ "." ++ n2 from rfl]
              rw [hlast.1, hlast.2]
          | cons b2 rest2 =>
              rw [List.getLast?_cons_cons] at hlast
              exact ih (s2 ++ "." ++ n2) s n (by simpa using hall.2) hlast
      | importFrom d => simp [isAssignName] at hall
      | imp names => simp [isAssignName] at hall
      | classDef q => simp [isAssignName] at hall
      | other => simp [isAssignName] at hall

/-- Witness for C7: between two assignment bindings, the later one
determines the result. -/
theorem C7_assignment_loop_witness :
    resolveLoop exampleCtx "x" "x" "x"
        [.assignName "QtWidgets.A" "x", .assignName "QtWidgets.B" "x"]
      = "QtWidgets.B" ++ "." ++ "x" :=
  (C7_assignment_loop exampleCtx "x" "x" "x").2.1
    [.assignName "QtWidgets.A" "x", .assignName "QtWidgets.B" "x"]
    "QtWidgets.B" "x" (by decide) (by decide)

/-- Stripping call arguments leaves a parenthesis-free string unchanged. -/
theorem subParens_id (repl : List Char) :
    ∀ s : List Char, s.contains '(' = false → subParens repl s = s := by
  intro s
  induction s with
  | nil => intro _; rfl
  | cons c rest ih =>
      intro h
      rw [List.contains_cons, Bool.or_eq_false_iff] at h
      obtain ⟨h1, h2⟩ := h
      have hc : ¬(c = '(') := by
        intro hh
        rw [hh] at h1
        simp at h1
      have hcond : (decide (c = '(') && rest.contains ')') = false := by
        simp [hc]
      simp only [subParens, hcond]
      simp [ih h2]

/-- Replacing a prefix replaces the front of the list. -/
theorem pyReplaceFirstAux_front (old new : List Char) :
    ∀ s : List Char, old.isPrefixOf s = true →
      pyReplaceFirstAux old new s = new ++ s.drop old.length := by
  intro s h
  cases s with
  | nil =>
      cases old with
      | nil => simp [pyReplaceFirstAux]
      | cons c cs => simp [List.isPrefixOf] at h
  | cons c rest =>
      simp only [pyReplaceFirstAux]
      rw [if_pos h]

/-- The first dotted segment of a string is one of its prefixes. -/
theorem strFirstSeg_isPrefix (s : String) :
    (strFirstSeg s).data.isPrefixOf s.data = true := by
  apply List.isPrefixOf_iff_prefix.mpr
  exact List.takeWhile_prefix _

/-- Unrecognised candidate bindings are skipped by the loop. -/
theorem resolveLoop_skip_others (ctx : ModuleCtx) (basename top acc : String) :
    ∀ (pre rest : List Binding), (∀ b ∈ pre, b = Binding.other) →
      resolveLoop ctx basename top acc (pre ++ rest)
        = resolveLoop ctx basename top acc rest := by
  intro pre
  induction pre with
  | nil => intro rest _; rfl
  | cons b pre2 ih =>
      intro rest h
      have hb := h b (by simp)
      subst hb
      rw [List.cons_append]
      rw [show resolveLoop ctx basename top acc (Binding.other :: (pre2 ++ rest))
          = resolveLoop ctx basename top acc (pre2 ++ rest) from rfl]
      exact ih rest (fun b2 hb2 => h b2 (List.mem_cons_of_mem _ hb2))

/-- C8: when the first recognised candidate binding of the looked-up name is
a `from X import Y [as Z]` statement, `resolve_qualname` resolves the alias
back to the original imported name, computes the absolute module path (a
relative-import level is resolved against the importing module path), and
returns the candidate with its first dotted segment replaced by
`<module>.<original name>`. -/
theorem C8_from_import :
    ∀ (ctx : ModuleCtx) (basename : String) (pre rest : List Binding)
      (d : ImportFromData),
    noParens basename = true →
    (∀ b ∈ pre, b = Binding.other) →
    ctx.env (strFirstSeg basename) = pre ++ Binding.importFrom d :: rest →
    isStrPrefix "builtins."
        (pyReplace1 basename (strFirstSeg basename)
          (get_full_import_name ctx d (strFirstSeg basename))) = false →
    isStrPrefix "__builtin__."
        (pyReplace1 basename (strFirstSeg basename)
          (get_full_import_name ctx d (strFirstSeg basename))) = false →
    (resolve_qualname ctx false basename
        = pyReplace1 basename (strFirstSeg basename)
            (get_full_import_name ctx d (strFirstSeg basename))
     ∧ resolve_qualname ctx false basename
        = get_full_import_name ctx d (strFirstSeg basename)
            ++ strDrop basename (strFirstSeg basename).length
     ∧ get_full_import_name ctx d (strFirstSeg basename)
        = (if d.level ≠ 0 then
              relativeToAbsoluteName ctx.rootName ctx.rootIsPackage d.modname d.level
            else d.modname)
            ++ "." ++ resolve_import_alias (strFirstSeg basename) d.names) := by
  intro ctx basename pre rest d hnp hpre henv hb1 hb2
  have hsub : subParens [] basename.data = basename.data := by
    apply subParens_id
    simpa [noParens] using hnp
  have hrq : resolve_qualname ctx false basename
      = pyReplace1 basename (strFirstSeg basename)
          (get_full_import_name ctx d (strFirstSeg basename)) := by
    have htop : strFirstSeg (⟨subParens [] basename.data⟩ : String)
        = strFirstSeg basename := by
      rw [hsub]
    simp only [resolve_qualname, htop, henv]
    rw [resolveLoop_skip_others ctx basename (strFirstSeg basename) basename pre
      (Binding.importFrom d :: rest) hpre]
    rw [show resolveLoop ctx basename (strFirstSeg basename) basename
        (Binding.importFrom d :: rest)
        = pyReplace1 basename (strFirstSeg basename)
            (get_full_import_name ctx d (strFirstSeg basename)) from rfl]
    simp [hb1, hb2]
  refine ⟨hrq, ?_, rfl⟩
  rw [hrq]
  show (⟨pyReplaceFirstAux (strFirstSeg basename).data
      (get_full_import_name ctx d (strFirstSeg basename)).data basename.data⟩ : String) = _
  rw [pyReplaceFirstAux_front _ _ _ (strFirstSeg_isPrefix basename)]
  rfl

/-- Witness for C8 at a relative aliased import `from . import y as x` in
module `pkg.mod`, resolving `x.Attr` to `pkg.m.y.Attr`. -/
theorem C8_from_import_witness :
    resolve_qualname importCtx false "x.Attr"
      = pyReplace1 "x.Attr" (strFirstSeg "x.Attr")
          (get_full_import_name importCtx ⟨"m", 1, [("y", some "x")]⟩
            (strFirstSeg "x.Attr")) :=
  (C8_from_import importCtx "x.Attr" [Binding.other] [] ⟨"m", 1, [("y", some "x")]⟩
    (by decide) (by decide) (by decide) (by decide) (by decide)).1

/-! ### Generic-rule semantics lemmas -/

/-- The base pattern rejects any candidate starting with `Q`. -/
theorem validBase_headQ : ∀ cs : List Char, cs.head? = some 'Q' → validBase cs = false := by
  intro cs h
  cases cs with
  | nil => simp at h
  | cons c rest =>
      simp only [List.head?_cons, Option.some.injEq] at h
      subst h
      cases rest with
      | nil =>
          show isBaseFirstChar 'Q' = false
          decide
      | cons e r2 =>
          show (isBaseFirstChar 'Q' && isBaseSecondChar e && r2.all isIdentDot) = false
          rw [show isBaseFirstChar 'Q' = false from by decide]
          simp

/-- The rule body never matches a run starting with `Q`. -/
theorem matchRun_headQ : ∀ member run : List Char,
    run.head? = some 'Q' → matchRun member run = false := by
  intro member run h
  have hv : validBase (run.take (run.length - member.length - 1)) = false := by
    cases hj : run.length - member.length - 1 with
    | zero => simp [validBase]
    | succ j =>
        apply validBase_headQ
        cases run with
        | nil => simp at h
        | cons c r2 =>
            simp only [List.head?_cons, Option.some.injEq] at h
            subst h
            simp
  rw [matchRun, hv]
  simp

/-- Tokenising at a boundary character yields a separator token. -/
theorem tokenize_sep (c : Char) (rest : List Char) (h : isIdentDot c = false) :
    tokenize (c :: rest) = .sep c :: tokenize rest := by
  simp [tokenize, h]

/-- Tokenising a maximal identifier-and-dot run followed by a boundary (or
the end of the text) yields one run token. -/
theorem tokenize_run (cs : List Char) (rest : List Char)
    (h0 : cs ≠ []) (h1 : cs.all isIdentDot = true)
    (h2 : ∀ e, rest.head? = some e → isIdentDot e = false) :
    tokenize (cs ++ rest) = .run cs :: tokenize rest := by
  induction cs with
  | nil => exact absurd rfl h0
  | cons c cs2 ih =>
      rw [List.all_cons, Bool.and_eq_true] at h1
      by_cases hc : cs2 = []
      · subst hc
        cases hr : rest with
        | nil => simp [tokenize, h1.1]
        | cons e r2 =>
            have he : isIdentDot e = false := h2 e (by rw [hr]; rfl)
            show tokenize (c :: e :: r2) = Tok.run [c] :: tokenize (e :: r2)
            rw [show tokenize (c :: e :: r2)
                = (let ts := tokenize (e :: r2);
                   if isIdentDot c then
                     match ts with
                     | .run r :: ts2 => .run (c :: r) :: ts2
                     | _ => .run [c] :: ts
                   else .sep c :: ts) from rfl]
            rw [tokenize_sep e r2 he]
            simp [h1.1]
      · have ht := ih hc h1.2
        rw [show ((c :: cs2) ++ rest) = c :: (cs2 ++ rest) from rfl]
        rw [show tokenize (c :: (cs2 ++ rest))
            = (let ts := tokenize (cs2 ++ rest);
               if isIdentDot c then
                 match ts with
                 | .run r :: ts2 => .run (c :: r) :: ts2
                 | _ => .run [c] :: ts
               else .sep c :: ts) from rfl]
        rw [ht]
        simp [h1.1]

/-- C10 (amended): the base-name portion of every emitted generic-occurrence
rule cannot match a dotted path whose first identifier begins with `Q`, so
the rule leaves text unchanged where the member is already reached through
its fully qualified `Qt` path — with arbitrary boundary characters around
the qualified path, and in the start-anchored case — and the output of an
application of the rule is again a fixed point on a text holding a single
member occurrence.  The unrestricted fixed-point property fails: a match
consumes its trailing boundary character, so of two occurrences sharing a
boundary only the first is rewritten in one pass (see the accompanying
counterexample). -/
theorem C10_q_exclusion :
    (∀ cs : List Char, cs.head? = some 'Q' → validBase cs = false)
  ∧ (∀ member run : List Char, run.head? = some 'Q' → matchRun member run = false)
  ∧ (∀ d d2 : Char, isIdentDot d = false → isIdentDot d2 = false →
        applyGeneric mselChars qselChars (d :: (qselChars ++ [d2]))
          = d :: (qselChars ++ [d2]))
  ∧ applyGeneric mselChars qselChars qselChars = qselChars
  ∧ applyGeneric mselChars qselChars
        (applyGeneric mselChars qselChars "x = view.MultiSelection".toList)
      = applyGeneric mselChars qselChars "x = view.MultiSelection".toList := by
  refine ⟨validBase_headQ, matchRun_headQ, ?_, by decide, by decide⟩
  intro d d2 hd hd2
  have hm : matchRun mselChars qselChars = false := by decide
  have ht : tokenize (d :: (qselChars ++ [d2]))
      = .sep d :: .run qselChars :: .sep d2 :: [] := by
    rw [tokenize_sep d _ hd]
    rw [tokenize_run qselChars [d2] (by decide) (by decide)
      (fun e he => by
        simp only [List.head?_cons, Option.some.injEq] at he
        rw [← he]
        exact hd2)]
    rw [tokenize_sep d2 [] hd2]
    rfl
  rw [applyGeneric, ht]
  simp [subTokensStart, subTokensCont, hm]

/-- C10 counterexample: the output of one application of the generic rule is
not, in general, a fixed point of that rule.  On
`a x.MultiSelection y.MultiSelection` the first pass rewrites only the first
occurrence — the match consumes the space that would have been the leading
boundary of the second occurrence — and a second pass rewrites the
survivor, so the first-pass output differs from its own image under the
rule. -/
theorem C10_fixed_point_counterexample :
    applyGeneric mselChars qselChars "a x.MultiSelection y.MultiSelection".toList
      = ("a " ++ exampleQual ++ " y.MultiSelection").toList
  ∧ applyGeneric mselChars qselChars (("a " ++ exampleQual ++ " y.MultiSelection").toList)
      = ("a " ++ exampleQual ++ " " ++ exampleQual).toList
  ∧ ("a " ++ exampleQual ++ " y.MultiSelection").toList
      ≠ ("a " ++ exampleQual ++ " " ++ exampleQual).toList := by
  exact ⟨by decide, by decide, by decide⟩

/-- Witness for C10 at concrete inputs: a `Q`-initial base, the example
run, and space boundaries around the fully qualified path. -/
theorem C10_q_exclusion_witness :
    validBase "Qabc".toList = false
  ∧ matchRun mselChars qselChars = false
  ∧ applyGeneric mselChars qselChars (' ' :: (qselChars ++ [' ']))
      = ' ' :: (qselChars ++ [' ']) :=
  ⟨C10_q_exclusion.1 "Qabc".toList (by decide),
   C10_q_exclusion.2.1 mselChars qselChars (by decide),
   C10_q_exclusion.2.2.1 ' ' ' ' (by decide) (by decide)⟩

/-- C1 counterexample: at the standalone occurrence
` QAbstractItemView.MultiSelection ` (preceded by a space boundary), the
compiled generic-occurrence rule of the extracted pair leaves the text
unchanged — it does not produce the qualified rewrite the claim requires,
because the base pattern `[a-zA-PR-Z0-9_.]...` excludes a leading `Q`. -/
theorem C1_generic_rule_counterexample :
    applyGeneric mselChars qselChars " QAbstractItemView.MultiSelection ".toList
      = " QAbstractItemView.MultiSelection ".toList
  ∧ " QAbstractItemView.MultiSelection ".toList
      ≠ (" " ++ exampleQual ++ " ").toList := by
  exact ⟨by decide, by decide⟩

set_option maxRecDepth 8000 in
/-- C1 (amended): on the example stub module the extractor yields exactly
the pair `("MultiSelection", "QtWidgets.QAbstractItemView.SelectionMode.MultiSelection")`
and its generic-occurrence rule is emitted; that rule leaves a standalone
`QAbstractItemView.MultiSelection` occurrence unchanged — its base pattern
excludes identifiers beginning with `Q` — while it does rewrite the member
reached through another base, such as `view.MultiSelection`, to the fully
qualified name. -/
theorem C1_end_to_end :
    (parse_module exampleCtx "QtWidgets" exampleBody).2
        = [("MultiSelection", exampleQual)]
  ∧ genericRule "MultiSelection" exampleQual
      ∈ (to_sed_script (parse_module exampleCtx "QtWidgets" exampleBody).2).1
  ∧ applyGeneric mselChars qselChars " QAbstractItemView.MultiSelection ".toList
      = " QAbstractItemView.MultiSelection ".toList
  ∧ applyGeneric mselChars qselChars "x = view.MultiSelection".toList
      = ("x = " ++ exampleQual).toList := by
  exact ⟨by decide, by decide, by decide, by decide⟩

end ProcessEnums
